import Mathlib

/-!
Verification of the go-chord ring protocol core against its specification.

Identifiers are big-endian byte buffers, modelled as lists of naturals
(each entry a byte value).  Go's bytes.Compare is modelled by a three-way
comparison returning an integer in {-1, 0, 1}; big.Int values are modelled
by the unsigned big-endian value of the buffer.
-/

namespace Chord

/-- Model of Go bytes.Compare: byte-wise lexicographic three-way comparison,
with a strict prefix comparing below its extension. -/
def bytesCompare : List Nat → List Nat → Int
  | [], [] => 0
  | [], _ :: _ => -1
  | _ :: _, [] => 1
  | a :: as, b :: bs =>
    if a < b then -1 else if b < a then 1 else bytesCompare as bs

/-- Unsigned big-endian value of a byte buffer, as big.Int SetBytes does. -/
def bytesToNat (l : List Nat) : Nat :=
  l.foldl (fun acc b => acc * 256 + b) 0

/-- Helper for natToBytes; the first argument is recursion fuel. -/
def natToBytesAux : Nat → Nat → List Nat
  | 0, _ => []
  | _ + 1, 0 => []
  | fuel + 1, n + 1 => natToBytesAux fuel ((n + 1) / 256) ++ [(n + 1) % 256]

/-- Minimal big-endian byte representation of a natural number, as
big.Int.Bytes does (the zero value yields the empty buffer). -/
def natToBytes (n : Nat) : List Nat :=
  natToBytesAux n n

/-- Model of between (vnode.go): checks if a key is strictly between two
IDs, with a wrap-around case when bytes.Compare(id1, id2) == 1. -/
def between (id1 id2 key : List Nat) : Bool :=
  if bytesCompare id1 id2 = 1 then
    bytesCompare id1 key = -1 || bytesCompare id2 key = 1
  else
    bytesCompare id1 key = -1 && bytesCompare id2 key = 1

/-- Model of betweenRightIncl (vnode.go): like between but right inclusive. -/
def betweenRightIncl (id1 id2 key : List Nat) : Bool :=
  if bytesCompare id1 id2 = 1 then
    bytesCompare id1 key = -1 || bytesCompare id2 key ≥ 0
  else
    bytesCompare id1 key = -1 && bytesCompare id2 key ≥ 0

/-- Model of powerOffset (vnode.go): computes (id + 2^exp) mod 2^mod over
the big.Int value of the buffer and returns the minimal byte encoding of
the result.  (The source also allocates an unused copy of id, which has
no observable effect.) -/
def powerOffset (id : List Nat) (exp : Nat) (md : Nat) : List Nat :=
  natToBytes ((bytesToNat id + 2 ^ exp) % 2 ^ md)

/-- Model of distance (iter_closest.go): forward distance from a to b
modulo the ring size 2^bits, using Euclidean remainder as big.Int.Mod
does (result non-negative). -/
def distance (a b : List Nat) (bits : Nat) : Int :=
  ((bytesToNat b : Int) - (bytesToNat a : Int)) % (2 ^ bits : Int)

/-! Basic lemmas about the comparison and encoding functions. -/

theorem bytesCompare_self (a : List Nat) : bytesCompare a a = 0 := by
  induction a with
  | nil => rfl
  | cons x xs ih => simp [bytesCompare, ih]

theorem bytesCompare_swap (a b : List Nat) :
    bytesCompare a b = -bytesCompare b a := by
  induction a generalizing b with
  | nil => cases b <;> rfl
  | cons x xs ih =>
    cases b with
    | nil => rfl
    | cons y ys =>
      by_cases hxy : x < y
      · have hyx : ¬ y < x := by omega
        simp [bytesCompare, hxy, hyx]
      · by_cases hyx : y < x
        · simp [bytesCompare, hxy, hyx]
        · simp [bytesCompare, hxy, hyx, ih ys]

theorem bytesCompare_eq_neg_one_iff (a b : List Nat) :
    bytesCompare a b = -1 ↔ List.Lex (· < ·) a b := by
  induction a generalizing b with
  | nil =>
    cases b with
    | nil =>
      simp only [bytesCompare]
      constructor
      · intro h; omega
      · intro h; cases h
    | cons y ys =>
      simp only [bytesCompare]
      constructor
      · intro _; exact List.Lex.nil
      · intro _; trivial
  | cons x xs ih =>
    cases b with
    | nil =>
      simp only [bytesCompare]
      constructor
      · intro h; omega
      · intro h; cases h
    | cons y ys =>
      by_cases hxy : x < y
      · simp only [bytesCompare, hxy, if_pos]
        constructor
        · intro _; exact List.Lex.rel hxy
        · intro _; trivial
      · by_cases hyx : y < x
        · simp only [bytesCompare, hxy, hyx, if_neg, if_pos, ite_false]
          constructor
          · intro h; omega
          · intro h
            cases h with
            | cons h => omega
            | rel h => omega
        · have hxyeq : x = y := by omega
          subst hxyeq
          simp only [bytesCompare, hxy, ite_false, lt_irrefl]
          rw [ih ys]
          constructor
          · intro h; exact List.Lex.cons h
          · intro h
            cases h with
            | cons h => exact h
            | rel h => omega

theorem bytesCompare_eq_one_iff (a b : List Nat) :
    bytesCompare a b = 1 ↔ List.Lex (· < ·) b a := by
  rw [bytesCompare_swap a b]
  rw [← bytesCompare_eq_neg_one_iff b a]
  omega

theorem bytesToNat_append_singleton (xs : List Nat) (b : Nat) :
    bytesToNat (xs ++ [b]) = 256 * bytesToNat xs + b := by
  simp only [bytesToNat, List.foldl_append, List.foldl_cons, List.foldl_nil]
  ring

theorem natToBytesAux_spec (fuel : Nat) :
    ∀ n, n ≤ fuel → bytesToNat (natToBytesAux fuel n) = n := by
  induction fuel with
  | zero =>
    intro n hn
    interval_cases n
    rfl
  | succ f ih =>
    intro n hn
    match n with
    | 0 => rfl
    | m + 1 =>
      have hdiv : (m + 1) / 256 ≤ f := by
        have h1 : (m + 1) / 256 < m + 1 := Nat.div_lt_self (by omega) (by omega)
        omega
      show bytesToNat (natToBytesAux f ((m + 1) / 256) ++ [(m + 1) % 256]) = m + 1
      rw [bytesToNat_append_singleton, ih _ hdiv]
      omega

theorem bytesToNat_natToBytes (n : Nat) : bytesToNat (natToBytes n) = n :=
  natToBytesAux_spec n n (Nat.le_refl n)

/-- C1 counterexample: the claimed unsigned-with-implicit-zero-padding
reading of between fails on the code.  First input: with a = [0x01] (value
1), b = [0x00, 0x02] (value 2), k = [0x00] (value 0), the claim demands
false (a < b but not a < k < b), yet between returns true, because
bytes.Compare is lexicographic and rates [0x01] above [0x00, 0x02].
Second input: with a = b = [0x01] and k = [0x00] the claim demands true
(a ≥ b and k < b), yet between returns false, because the wrap branch of
the code requires strictly a > b. -/
theorem between_claim_counterexample :
    (between [1] [0, 2] [0] = true ∧
      bytesToNat [1] < bytesToNat [0, 2] ∧
      ¬ (bytesToNat [1] < bytesToNat [0] ∧ bytesToNat [0] < bytesToNat [0, 2])) ∧
    (between [1] [1] [0] = false ∧
      bytesToNat [1] ≥ bytesToNat [1] ∧ bytesToNat [0] < bytesToNat [1]) := by
  decide

/-- C1 (amended): between(a, b, k) compares buffers with Go bytes.Compare,
i.e. byte-wise lexicographically (which agrees with unsigned comparison on
equal-length buffers; short buffers are not zero-padded).  It returns true
iff a > b lexicographically and (k > a or k < b), or a ≤ b lexicographically
and a < k < b; both endpoints are always exclusive. -/
theorem between_correct (a b k : List Nat) :
    (between a b k = true ↔
      ((List.Lex (· < ·) b a ∧ (List.Lex (· < ·) a k ∨ List.Lex (· < ·) k b)) ∨
       (¬ List.Lex (· < ·) b a ∧ List.Lex (· < ·) a k ∧ List.Lex (· < ·) k b))) ∧
    between a b a = false ∧ between a b b = false := by
  refine ⟨?_, ?_, ?_⟩
  · unfold between
    by_cases h : bytesCompare a b = 1
    · rw [bytesCompare_eq_one_iff] at h
      simp only [h, if_pos, Bool.or_eq_true, decide_eq_true_eq,
        bytesCompare_eq_neg_one_iff, bytesCompare_eq_one_iff]
      tauto
    · rw [bytesCompare_eq_one_iff] at h
      simp only [h, if_neg, Bool.and_eq_true, decide_eq_true_eq,
        bytesCompare_eq_neg_one_iff, bytesCompare_eq_one_iff, not_false_iff]
      tauto
  · unfold between
    have hself : bytesCompare a a = 0 := bytesCompare_self a
    by_cases h : bytesCompare a b = 1
    · have hba : bytesCompare b a = -1 := by
        rw [bytesCompare_swap b a, h]
      simp [h, hself, hba]
    · simp [h, hself]
  · unfold between
    have hself : bytesCompare b b = 0 := bytesCompare_self b
    by_cases h : bytesCompare a b = 1
    · have hne : bytesCompare a b ≠ -1 := by omega
      simp [h, hself, hne]
    · simp [h, hself]

/-- C2 counterexample: the claim asserts distance(0x01, 0xFF, 8) = 2, but
the forward distance from 1 to 255 modulo 256 computed by the code is 254
(the repository test expects 254 as well). -/
theorem distance_claim_counterexample :
    distance [1] [255] 8 = 254 ∧ distance [1] [255] 8 ≠ 2 := by
  refine ⟨by decide, by decide⟩

/-- C2 (amended): distance(a, b, m) is the unique value d with
0 ≤ d < 2^m and (a + d) ≡ b modulo 2^m, i.e. the forward distance from a
to b; the claimed examples hold with the third corrected to
distance(0x01, 0xFF, 8) = 0xFE. -/
theorem distance_correct (a b : List Nat) (m : Nat) :
    (0 ≤ distance a b m ∧ distance a b m < 2 ^ m ∧
      ((bytesToNat a : Int) + distance a b m) % 2 ^ m = (bytesToNat b : Int) % 2 ^ m) ∧
    distance [0x3F] [0x03] 6 = 4 ∧ distance [0x00] [0x41] 7 = 0x41 ∧
    distance [0x01] [0xFF] 8 = 0xFE := by
  have hpos : (0 : Int) < 2 ^ m := by positivity
  refine ⟨⟨?_, ?_, ?_⟩, rfl, rfl, rfl⟩
  · exact Int.emod_nonneg _ (by omega)
  · exact Int.emod_lt_of_pos _ hpos
  · unfold distance
    conv_lhs => rw [Int.add_emod]
    rw [Int.emod_emod_of_dvd _ dvd_rfl]
    rw [← Int.add_emod]
    ring_nf

/-- C3: powerOffset(id, exp, m) encodes (id + 2^exp) mod 2^m: its value is
exactly that sum modulo the ring size, in particular below 2^m, and the two
claimed concrete examples hold. -/
theorem powerOffset_correct (id : List Nat) (exp m : Nat) :
    bytesToNat (powerOffset id exp m) = (bytesToNat id + 2 ^ exp) % 2 ^ m ∧
    bytesToNat (powerOffset id exp m) < 2 ^ m ∧
    powerOffset [0, 0, 0, 0] 30 32 = [0x40, 0, 0, 0] ∧
    powerOffset [0, 0xFF, 0xFF, 0xFF] 23 32 = [0x01, 0x7F, 0xFF, 0xFF] := by
  refine ⟨?_, ?_, ?_, ?_⟩
  · exact bytesToNat_natToBytes _
  · unfold powerOffset
    rw [bytesToNat_natToBytes]
    exact Nat.mod_lt _ (by positivity)
  · decide
  · decide

/-! Vnode descriptors and per-vnode state operations. -/

/-- A Vnode descriptor: virtual ID (byte buffer) and host string. -/
structure Vnode where
  id : List Nat
  host : String
deriving DecidableEq

/-- Model of Vnode.String(): hex form of the ID, two hex digits per byte,
rendered as the list of hex digit values. -/
def vnodeString (vn : Vnode) : List Nat :=
  vn.id.foldr (fun b acc => b / 16 :: b % 16 :: acc) []

theorem vnodeString_inj_on_bytes (a b : Vnode) (ha : ∀ x ∈ a.id, x < 256)
    (hb : ∀ x ∈ b.id, x < 256) (h : vnodeString a = vnodeString b) :
    a.id = b.id := by
  obtain ⟨la, hosta⟩ := a
  obtain ⟨lb, hostb⟩ := b
  simp only [vnodeString] at h
  simp only
  induction la generalizing lb with
  | nil => cases lb with
    | nil => rfl
    | cons y ys => simp at h
  | cons x xs ih =>
    cases lb with
    | nil => simp at h
    | cons y ys =>
      simp only [List.foldr_cons, List.cons.injEq] at h
      obtain ⟨h1, h2, h3⟩ := h
      have hx : x < 256 := ha x (by simp)
      have hy : y < 256 := hb y (by simp)
      have hxy : x = y := by omega
      have := ih (fun z hz => ha z (by simp [hz])) ys
        (fun z hz => hb z (by simp [hz])) h3
      simp [hxy, this]

/-- Model of localVnode.knownSuccessors (vnode.go): scans the whole list
and reports the index after the last non-nil entry. -/
def knownSuccessors (succs : List (Option Vnode)) : Nat :=
  (List.range succs.length).foldl
    (fun acc i =>
      match succs.get? i with
      | some (some _) => i + 1
      | _ => acc) 0

/-- Go initialization of the successor list in localVnode.init:
a slice of NumSuccessors nil entries. -/
def initSuccessors (r : Nat) : List (Option Vnode) :=
  List.replicate r none

/-- Model of Ring.setLocalSuccessors for one local vnode at position idx of
the sorted vnode list: starting from the freshly initialized list, assign
successors[i] = vnodes[(idx+i+1) mod numV] for i < min(NumSuccessors,
numV-1).  The index (idx+i+1) mod numV is always in range, so the fetched
entry is never none. -/
def setLocalSuccessorsFor (r : Nat) (vns : List Vnode) (idx : Nat) :
    List (Option Vnode) :=
  let numV := vns.length
  let numSuc := min r (numV - 1)
  (List.range numSuc).foldl
    (fun succs i => succs.set i (vns.get? ((idx + i + 1) % numV)))
    (initSuccessors r)

theorem foldl_set_pos_get_zero (f : Nat → Option Vnode) (l : List Nat)
    (hl : ∀ i ∈ l, 0 < i) :
    ∀ acc : List (Option Vnode),
      (l.foldl (fun succs i => succs.set i (f i)) acc).get? 0 = acc.get? 0 := by
  induction l with
  | nil => intro acc; rfl
  | cons x xs ih =>
    intro acc
    simp only [List.foldl_cons]
    rw [ih (fun i hi => hl i (by simp [hi]))]
    have hx : 0 < x := hl x (by simp)
    rw [List.get?_set_ne _ _ (by omega)]

/-- C4 counterexample: with a single local vnode (num_vnodes = 1) and the
default num_successors = 8, Create leaves successors[0] nil, because
min(r, N-1) = 0 local successors are assigned; the claim asserts a non-nil
successors[0] for every configuration with num_vnodes ≥ 1. -/
theorem setLocalSuccessors_claim_counterexample :
    (setLocalSuccessorsFor 8 [⟨[5], "host"⟩] 0).get? 0 = some none := by
  decide

/-- C4 (amended): for every configuration with num_successors ≥ 1 and
num_vnodes ≥ 2, after local-successor initialization with min(r, N-1)
clockwise neighbors, every local vnode has a non-nil successors[0], namely
its clockwise neighbor in the sorted local list.  With a single local
vnode the loop assigns nothing and successors[0] remains nil. -/
theorem setLocalSuccessors_head (r : Nat) (vns : List Vnode) (idx : Nat)
    (hr : 1 ≤ r) (hv : 2 ≤ vns.length) :
    ∃ v : Vnode, (setLocalSuccessorsFor r vns idx).get? 0 = some (some v) ∧
      vns.get? ((idx + 1) % vns.length) = some v := by
  have hnum : 1 ≤ min r (vns.length - 1) := by omega
  have hibound : (idx + 1) % vns.length < vns.length :=
    Nat.mod_lt _ (by omega)
  have hv0 : vns.get? ((idx + 1) % vns.length) =
      some (vns.get ⟨(idx + 1) % vns.length, hibound⟩) :=
    List.get?_eq_get hibound
  refine ⟨vns.get ⟨(idx + 1) % vns.length, hibound⟩, ?_, hv0⟩
  unfold setLocalSuccessorsFor
  obtain ⟨k, hk⟩ : ∃ k, min r (vns.length - 1) = k + 1 :=
    ⟨min r (vns.length - 1) - 1, by omega⟩
  simp only [hk]
  rw [List.range_succ_eq_map]
  simp only [List.foldl_cons]
  rw [foldl_set_pos_get_zero _ _ (by
    intro i hi
    simp only [List.mem_map] at hi
    obtain ⟨j, _, hj⟩ := hi
    omega)]
  simp only [Nat.add_zero]
  rw [hv0, List.get?_eq_getElem?,
    List.getElem?_set_eq_of_lt _ (by simp [initSuccessors]; omega)]

/-- C4 witness input: two vnodes, r = 1. -/
theorem setLocalSuccessors_head_witness :
    1 ≤ 1 ∧ 2 ≤ ([⟨[1], "a"⟩, ⟨[2], "b"⟩] : List Vnode).length ∧
      ∃ v : Vnode,
        (setLocalSuccessorsFor 1 [⟨[1], "a"⟩, ⟨[2], "b"⟩] 0).get? 0 =
          some (some v) ∧
        ([⟨[1], "a"⟩, ⟨[2], "b"⟩] : List Vnode).get? ((0 + 1) % 2) = some v :=
  ⟨by decide, by decide,
    setLocalSuccessors_head 1 [⟨[1], "a"⟩, ⟨[2], "b"⟩] 0 (by decide) (by decide)⟩

/-! notifySuccessor: truncation and copy of the successor list returned by
Notify(successors[0], self). -/

/-- Trim step of notifySuccessor (vnode.go): cap the received list at
NumSuccessors - 1 entries. -/
def truncSuccList (maxSucc : Nat) (l : List (Option Vnode)) :
    List (Option Vnode) :=
  if l.length > maxSucc - 1 then l.take (maxSucc - 1) else l

/-- Copy loop of notifySuccessor (vnode.go): for idx, s over the received
list, break on a nil entry or on an entry whose String() equals our own,
otherwise write successors[idx+1] = s.  (The source tests s == nil twice;
the second test is dead code.) -/
def notifyCopyLoop (self : Vnode) :
    List (Option Vnode) → Nat → List (Option Vnode) → List (Option Vnode)
  | [], _, succs => succs
  | none :: _, _, succs => succs
  | some s :: rest, idx, succs =>
    if vnodeString s = vnodeString self then succs
    else notifyCopyLoop self rest (idx + 1) (succs.set (idx + 1) (some s))

/-- Model of notifySuccessor (vnode.go): the new successor list obtained
from the old one after a successful Notify returned succList. -/
def notifySuccessorUpdate (self : Vnode) (maxSucc : Nat)
    (succList succs : List (Option Vnode)) : List (Option Vnode) :=
  notifyCopyLoop self (truncSuccList maxSucc succList) 0 succs

/-- Modelled from the spec words of the claim (not from the source): the
copy loop that SKIPS a self-equal entry and keeps copying the entries after
it, stopping only at the first nil. -/
def notifyCopyLoopSkip (self : Vnode) :
    List (Option Vnode) → Nat → List (Option Vnode) → List (Option Vnode)
  | [], _, succs => succs
  | none :: _, _, succs => succs
  | some s :: rest, idx, succs =>
    if vnodeString s = vnodeString self then
      notifyCopyLoopSkip self rest (idx + 1) succs
    else notifyCopyLoopSkip self rest (idx + 1) (succs.set (idx + 1) (some s))

/-- Modelled from the spec words of the claim: notifySuccessor as the claim
describes it, with self-equal entries skipped rather than terminating. -/
def notifySuccessorUpdateSkip (self : Vnode) (maxSucc : Nat)
    (succList succs : List (Option Vnode)) : List (Option Vnode) :=
  notifyCopyLoopSkip self (truncSuccList maxSucc succList) 0 succs

/-- True for entries the copy loop accepts: non-nil and not equal to self. -/
def goodEntry (self : Vnode) : Option Vnode → Bool
  | none => false
  | some v => decide (vnodeString v ≠ vnodeString self)

/-- Writes the given entries into consecutive slots starting at index k. -/
def writeFrom : List (Option Vnode) → Nat → List (Option Vnode) →
    List (Option Vnode)
  | succs, _, [] => succs
  | succs, k, x :: rest => writeFrom (succs.set k x) (k + 1) rest

/-- C6 counterexample: with self = ⟨[1],a⟩, r = 3, received list
[self, other]: the code breaks at the self-equal entry and copies nothing,
while the claimed skip-and-continue behavior would write other into
successors[2]. -/
theorem notifySuccessor_claim_counterexample :
    notifySuccessorUpdate ⟨[1], "a"⟩ 3 [some ⟨[1], "a"⟩, some ⟨[2], "b"⟩]
        [some ⟨[3], "c"⟩, none, none] = [some ⟨[3], "c"⟩, none, none] ∧
    notifySuccessorUpdateSkip ⟨[1], "a"⟩ 3 [some ⟨[1], "a"⟩, some ⟨[2], "b"⟩]
        [some ⟨[3], "c"⟩, none, none] =
      [some ⟨[3], "c"⟩, none, some ⟨[2], "b"⟩] := by
  decide

theorem notifyCopyLoop_eq_writeFrom (self : Vnode) (l : List (Option Vnode)) :
    ∀ (idx : Nat) (succs : List (Option Vnode)),
      notifyCopyLoop self l idx succs =
        writeFrom succs (idx + 1) (l.takeWhile (goodEntry self)) := by
  induction l with
  | nil => intro idx succs; rfl
  | cons x rest ih =>
    intro idx succs
    match x with
    | none => rfl
    | some s =>
      by_cases h : vnodeString s = vnodeString self
      · simp [notifyCopyLoop, h, List.takeWhile_cons, goodEntry, writeFrom]
      · simp only [notifyCopyLoop, h, if_neg, List.takeWhile_cons, goodEntry,
          decide_not, ite_false]
        rw [ih]
        simp [h, writeFrom]

/-- C6 (amended): notifySuccessor truncates the received list to r-1
entries and copies into self.successors[1..] exactly its longest prefix of
entries that are non-nil and not equal to self; copying stops at the first
nil entry or the first self-equal entry, so entries after a self-equal
entry are not copied.  Slots beyond the copied prefix keep their previous
contents. -/
theorem notifySuccessor_correct (self : Vnode) (maxSucc : Nat)
    (succList succs : List (Option Vnode)) :
    notifySuccessorUpdate self maxSucc succList succs =
      writeFrom succs 1
        ((truncSuccList maxSucc succList).takeWhile (goodEntry self)) := by
  unfold notifySuccessorUpdate
  rw [notifyCopyLoop_eq_writeFrom]

/-! checkNewSuccessor: the recovery walk over the successor list after a
transport failure of GetPredecessor. -/

/-- Outcome of the error branch of checkNewSuccessor (vnode.go). -/
inductive WalkOutcome where
  | allDead
  | foundLive
  | origErr
  | panicked
deriving DecidableEq

/-- Model of copy(successors[0:], successors[1:]): every entry moves left
one slot and the final entry of the backing array stays in place. -/
def shiftLeft : List (Option Vnode) → List (Option Vnode)
  | [] => []
  | x :: rest => rest ++ [((x :: rest).getLast?).getD none]

/-- The for-loop of the recovery walk (vnode.go): ping successors[0]; on a
live node jump back to CHECK_NEW_SUC; on a dead node return the
all-known-successors-dead error when this was the last known entry,
otherwise shift the list left, nil the slot known-1-i, and continue.  The
first Nat argument is known - i (iterations still permitted, so the loop
guard i < known is its positivity); the second is the loop counter i.
Pinging a nil entry dereferences nil in Go and is modelled as panicked. -/
def succWalk (alive : Vnode → Bool) (known : Nat) :
    Nat → Nat → List (Option Vnode) → WalkOutcome × List (Option Vnode)
  | 0, _, succs => (WalkOutcome.origErr, succs)
  | rem + 1, i, succs =>
    match succs with
    | some v :: _ =>
      if alive v then (WalkOutcome.foundLive, succs)
      else if i + 1 = known then (WalkOutcome.allDead, succs)
      else succWalk alive known rem (i + 1)
        ((shiftLeft succs).set (known - 1 - i) none)
    | _ => (WalkOutcome.panicked, succs)

/-- Model of the error branch of checkNewSuccessor (vnode.go): when the
GetPredecessor call fails, walk the successor list only when more than one
successor is known, else surface the original transport error. -/
def checkNewSuccessorOnError (alive : Vnode → Bool)
    (succs : List (Option Vnode)) : WalkOutcome × List (Option Vnode) :=
  if 1 < knownSuccessors succs then
    succWalk alive (knownSuccessors succs) (knownSuccessors succs) 0 succs
  else (WalkOutcome.origErr, succs)

/-- Successor lists maintained by the code keep nil entries as a suffix. -/
def normalForm : List (Option Vnode) → Bool
  | [] => true
  | some _ :: rest => normalForm rest
  | none :: rest => rest.all (fun x => x.isNone)

/-- The non-nil prefix of a successor list. -/
def somePrefix : List (Option Vnode) → List Vnode
  | some v :: rest => v :: somePrefix rest
  | _ => []

theorem all_isNone_eq_replicate (l : List (Option Vnode))
    (h : l.all (fun x => x.isNone) = true) :
    l = List.replicate l.length none := by
  induction l with
  | nil => rfl
  | cons x rest ih =>
    simp only [List.all_cons, Bool.and_eq_true] at h
    have hx : x = none := by
      cases x with
      | none => rfl
      | some v => simp [Option.isNone] at h
    subst hx
    rw [List.length_cons, List.replicate_succ]
    exact congrArg (List.cons none) (ih h.2)

theorem normalForm_decomp (l : List (Option Vnode))
    (h : normalForm l = true) :
    l = (somePrefix l).map some ++
      List.replicate (l.length - (somePrefix l).length) none := by
  induction l with
  | nil => rfl
  | cons x rest ih =>
    cases x with
    | some v =>
      have hrest : normalForm rest = true := h
      have := ih hrest
      simp only [somePrefix, List.map_cons, List.length_cons, List.cons_append]
      rw [Nat.succ_sub_succ]
      exact congrArg (some v :: ·) this
    | none =>
      have hall : rest.all (fun x => x.isNone) = true := h
      have hrest := all_isNone_eq_replicate rest hall
      simp only [somePrefix, List.map_nil, List.nil_append, List.length_cons,
        Nat.sub_zero, List.length_nil]
      rw [List.replicate_succ]
      exact congrArg (none :: ·) hrest

theorem knownFold_none (l : List (Option Vnode)) (ns : List Nat)
    (h : ∀ i ∈ ns, ∀ x, l.get? i ≠ some (some x)) :
    ∀ acc, ns.foldl
      (fun acc i =>
        match l.get? i with
        | some (some _) => i + 1
        | _ => acc) acc = acc := by
  induction ns with
  | nil => intro acc; rfl
  | cons j js ih =>
    intro acc
    simp only [List.foldl_cons]
    have hj := h j (by simp)
    rcases hget : l.get? j with _ | x
    · exact ih (fun i hi => h i (by simp [hi])) acc
    · cases x with
      | none => exact ih (fun i hi => h i (by simp [hi])) acc
      | some v => exact absurd hget (hj v)

theorem knownFold_range_allSome (l : List (Option Vnode)) (m : Nat)
    (h : ∀ i, i < m → ∃ x, l.get? i = some (some x)) :
    ∀ acc, (List.range m).foldl
      (fun acc i =>
        match l.get? i with
        | some (some _) => i + 1
        | _ => acc) acc = if m = 0 then acc else m := by
  induction m with
  | zero => intro acc; rfl
  | succ m ih =>
    intro acc
    rw [List.range_succ, List.foldl_append]
    obtain ⟨x, hx⟩ := h m (by omega)
    simp only [List.foldl_cons, List.foldl_nil, hx]
    simp

theorem knownSuccessors_canonical (vs : List Vnode) (p : Nat) :
    knownSuccessors (vs.map some ++ List.replicate p none) = vs.length := by
  unfold knownSuccessors
  have hlen : (vs.map some ++ List.replicate p none).length = vs.length + p := by
    simp
  rw [hlen, List.range_add, List.foldl_append]
  rw [knownFold_range_allSome _ vs.length ?hsome]
  case hsome =>
    intro i hi
    refine ⟨vs.get ⟨i, hi⟩, ?_⟩
    rw [List.get?_eq_getElem?, List.getElem?_append_left (by simpa using hi)]
    simp [List.getElem?_eq_getElem, hi]
  rw [knownFold_none]
  · split <;> omega
  · intro i hi x hx
    simp only [List.mem_map, List.mem_range] at hi
    obtain ⟨j, hj, rfl⟩ := hi
    rw [List.get?_eq_getElem?,
      List.getElem?_append_right (by simp)] at hx
    simp only [List.length_map] at hx
    rw [List.getElem?_replicate] at hx
    split at hx <;> simp_all

theorem shiftSet_canonical (v : Vnode) (ws : List Vnode) (p : Nat) :
    (shiftLeft ((v :: ws).map some ++ List.replicate p none)).set ws.length none
      = ws.map some ++ List.replicate (p + 1) none := by
  have hsplit : (v :: ws).map some ++ List.replicate p none =
      some v :: (ws.map some ++ List.replicate p none) := by simp
  rw [hsplit]
  show ((ws.map some ++ List.replicate p none) ++
      [((some v :: (ws.map some ++ List.replicate p none)).getLast?).getD none]).set
        ws.length none = ws.map some ++ List.replicate (p + 1) none
  cases p with
  | zero =>
    simp only [List.replicate, List.append_nil]
    rw [List.set_append_right _ _ (by simp)]
    simp [List.replicate_succ]
  | succ q =>
    have hlast : ((some v :: (ws.map some ++ List.replicate (q + 1) none)).getLast?).getD none
        = none := by
      rw [show some v :: (ws.map some ++ List.replicate (q + 1) none) =
        (some v :: ws.map some) ++ List.replicate (q + 1) none by simp]
      rw [List.getLast?_append]
      rw [List.getLast?_replicate]
      simp
    rw [hlast]
    rw [List.append_assoc]
    rw [List.set_append_right _ _ (by simp)]
    congr 1
    · simp only [List.length_map, Nat.sub_self]
      rw [List.replicate_succ]
      simp only [List.cons_append, List.set_cons_zero]
      rw [show (q + 1) + 1 = (q + 1) + 1 from rfl]
      rw [List.replicate_succ (n := q + 1)]
      have : List.replicate (q + 1) (none : Option Vnode) ++ [none] =
          List.replicate (q + 2) none := by
        rw [← List.replicate_succ' (n := q + 1)]
      rw [show List.replicate (q + 1) (none : Option Vnode) = none :: List.replicate q none from List.replicate_succ _ _] at this ⊢
      simp only [List.cons_append] at this
      rw [this]
      rfl

theorem succWalk_canonical (alive : Vnode → Bool) (known : Nat) :
    ∀ (vs : List Vnode) (p i : Nat), vs.length = known - i → i < known →
      (((succWalk alive known (known - i) i
          (vs.map some ++ List.replicate p none)).1 = WalkOutcome.foundLive ∨
        (succWalk alive known (known - i) i
          (vs.map some ++ List.replicate p none)).1 = WalkOutcome.allDead) ∧
       1 ≤ knownSuccessors (succWalk alive known (known - i) i
          (vs.map some ++ List.replicate p none)).2 ∧
       ((∀ v ∈ vs, alive v = false) →
        (succWalk alive known (known - i) i
          (vs.map some ++ List.replicate p none)).1 = WalkOutcome.allDead)) := by
  intro vs
  induction vs with
  | nil =>
    intro p i hlen hi
    simp only [List.length_nil] at hlen
    omega
  | cons v ws ih =>
    intro p i hlen hi
    have hrem : known - i = ws.length + 1 := by
      simp only [List.length_cons] at hlen
      omega
    have hform : (v :: ws).map some ++ List.replicate p none =
        some v :: (ws.map some ++ List.replicate p none) := by simp
    have hkc : knownSuccessors ((v :: ws).map some ++ List.replicate p none) =
        ws.length + 1 := by
      rw [knownSuccessors_canonical]
      simp
    by_cases halive : alive v = true
    · have hstep : succWalk alive known (known - i) i
          ((v :: ws).map some ++ List.replicate p none) =
          (WalkOutcome.foundLive,
            (v :: ws).map some ++ List.replicate p none) := by
        rw [hrem, hform]
        simp [succWalk, halive]
      rw [hstep]
      refine ⟨Or.inl rfl, ?_, ?_⟩
      · rw [hkc]
        omega
      · intro hall
        have hf := hall v (by simp)
        rw [halive] at hf
        exact absurd hf (by decide)
    · replace halive : alive v = false := by
        revert halive
        cases alive v <;> simp
      by_cases hlast : i + 1 = known
      · have hstep : succWalk alive known (known - i) i
            ((v :: ws).map some ++ List.replicate p none) =
            (WalkOutcome.allDead,
              (v :: ws).map some ++ List.replicate p none) := by
          rw [hrem, hform]
          simp [succWalk, halive, hlast]
        rw [hstep]
        refine ⟨Or.inr rfl, ?_, fun _ => rfl⟩
        rw [hkc]
        omega
      · have hpos : known - 1 - i = ws.length := by omega
        have hstep : succWalk alive known (known - i) i
            ((v :: ws).map some ++ List.replicate p none) =
            succWalk alive known (known - (i + 1)) (i + 1)
              (ws.map some ++ List.replicate (p + 1) none) := by
          rw [hrem, hform]
          simp only [succWalk, halive, Bool.false_eq_true, if_false,
            hlast, ite_false]
          rw [← hform, hpos, shiftSet_canonical]
          congr 1
          omega
        rw [hstep]
        have hws : ws.length = known - (i + 1) := by omega
        have H := ih (p + 1) (i + 1) hws (by omega)
        exact ⟨H.1, H.2.1, fun hall => H.2.2 (fun w hw => hall w (by simp [hw]))⟩

/-- C5: in the recovery walk of check_new_successor, the last remaining
entry of the successor list is never removed (at least one non-nil entry
survives), and when every successor is dead the walk reaches the point
where only one remains and fails with the error "all known successors
dead".  Hypotheses: nil entries form a suffix (the shape the code
maintains) and at least one successor is known. -/
theorem checkNewSuccessor_walk_correct (alive : Vnode → Bool)
    (succs : List (Option Vnode)) (hnf : normalForm succs = true)
    (hk : 1 ≤ knownSuccessors succs) :
    1 ≤ knownSuccessors (checkNewSuccessorOnError alive succs).2 ∧
    (2 ≤ knownSuccessors succs → (∀ v, alive v = false) →
      (checkNewSuccessorOnError alive succs).1 = WalkOutcome.allDead) := by
  have hdecomp := normalForm_decomp succs hnf
  have hks : knownSuccessors succs = (somePrefix succs).length := by
    conv_lhs => rw [hdecomp]
    exact knownSuccessors_canonical _ _
  unfold checkNewSuccessorOnError
  by_cases h2 : 1 < knownSuccessors succs
  · rw [if_pos h2]
    have hmain := succWalk_canonical alive (knownSuccessors succs)
      (somePrefix succs) (succs.length - (somePrefix succs).length) 0
      (by omega) (by omega)
    rw [Nat.sub_zero] at hmain
    rw [← hdecomp] at hmain
    refine ⟨hmain.2.1, fun _ hall => hmain.2.2 (fun w _ => hall w)⟩
  · rw [if_neg h2]
    exact ⟨hk, fun hge _ => absurd hge (by omega)⟩

/-- C5 witness: two known successors, everything dead; the walk ends with
the all-dead error and one surviving successor entry. -/
theorem checkNewSuccessor_walk_correct_witness :
    normalForm [some ⟨[1], "a"⟩, some ⟨[2], "b"⟩] = true ∧
    1 ≤ knownSuccessors [some ⟨[1], "a"⟩, some ⟨[2], "b"⟩] ∧
    (1 ≤ knownSuccessors
        (checkNewSuccessorOnError (fun _ => false)
          [some ⟨[1], "a"⟩, some ⟨[2], "b"⟩]).2 ∧
     (2 ≤ knownSuccessors [some ⟨[1], "a"⟩, some ⟨[2], "b"⟩] →
      (∀ v : Vnode, (fun (_ : Vnode) => false) v = false) →
      (checkNewSuccessorOnError (fun _ => false)
          [some ⟨[1], "a"⟩, some ⟨[2], "b"⟩]).1 = WalkOutcome.allDead)) :=
  ⟨by decide, by decide,
    checkNewSuccessor_walk_correct (fun _ => false)
      [some ⟨[1], "a"⟩, some ⟨[2], "b"⟩] (by decide) (by decide)⟩

/-! fixFingerTable: repair of one finger entry plus forward coalescing. -/

/-- The coalescing loop of fixFingerTable (vnode.go): while the next
offset still falls right-inclusively between our ID and the found node,
write the node into the next finger slot and advance lastFinger.  The
first Nat argument is hb - (lastFinger + 1), the number of slots the loop
may still visit, so its positivity is the guard next < hb. -/
def fixFingerLoop (id : List Nat) (node : Vnode) (hb : Nat) :
    Nat → List (Option Vnode) → Nat → List (Option Vnode) × Nat
  | 0, finger, lastFinger => (finger, lastFinger)
  | rem + 1, finger, lastFinger =>
    if betweenRightIncl id node.id (powerOffset id (lastFinger + 1) hb) then
      fixFingerLoop id node hb rem
        (finger.set (lastFinger + 1) (some node)) (lastFinger + 1)
    else (finger, lastFinger)

/-- Model of fixFingerTable (vnode.go), parametrized by the outcome of the
internal FindSuccessors(1, offset) call: some s models success returning
node s as first entry; none models an error or nil/empty result, on which
the function returns with finger and lastFinger untouched.  On success the
found node is written at lastFinger, the coalescing loop runs, and
lastFinger advances by one, wrapping to 0 at hb. -/
def fixFingerTable (id : List Nat) (hb : Nat)
    (lookup : List Nat → Option Vnode) (finger : List (Option Vnode))
    (lastFinger : Nat) : List (Option Vnode) × Nat :=
  match lookup (powerOffset id lastFinger hb) with
  | none => (finger, lastFinger)
  | some node =>
    let res := fixFingerLoop id node hb (hb - (lastFinger + 1))
      (finger.set lastFinger (some node)) lastFinger
    (res.1, if res.2 + 1 = hb then 0 else res.2 + 1)

theorem fixFingerLoop_spec (id : List Nat) (s : Vnode) (hb : Nat) :
    ∀ (rem lf : Nat) (finger : List (Option Vnode)),
      rem = hb - (lf + 1) → lf < hb → finger.length = hb →
      ∃ J, lf ≤ J ∧ J < hb ∧
        (∀ j, lf < j → j ≤ J →
          betweenRightIncl id s.id (powerOffset id j hb) = true) ∧
        (J + 1 < hb →
          betweenRightIncl id s.id (powerOffset id (J + 1) hb) = false) ∧
        (fixFingerLoop id s hb rem finger lf).2 = J ∧
        (∀ k, (fixFingerLoop id s hb rem finger lf).1.get? k =
          if lf < k ∧ k ≤ J then some (some s) else finger.get? k) := by
  intro rem
  induction rem with
  | zero =>
    intro lf finger hrem hlf hlen
    refine ⟨lf, Nat.le_refl lf, hlf, ?_, ?_, rfl, ?_⟩
    · intro j h1 h2; omega
    · intro h; omega
    · intro k
      have : ¬ (lf < k ∧ k ≤ lf) := by omega
      simp [fixFingerLoop, this]
  | succ rem ih =>
    intro lf finger hrem hlf hlen
    have hnext : lf + 1 < hb := by omega
    by_cases hcond :
        betweenRightIncl id s.id (powerOffset id (lf + 1) hb) = true
    · have hstep : fixFingerLoop id s hb (rem + 1) finger lf =
          fixFingerLoop id s hb rem
            (finger.set (lf + 1) (some s)) (lf + 1) := by
        simp [fixFingerLoop, hcond]
      rw [hstep]
      obtain ⟨J, hJ1, hJ2, hJ3, hJ4, hJ5, hJ6⟩ :=
        ih (lf + 1) (finger.set (lf + 1) (some s)) (by omega) hnext
          (by simp [hlen])
      refine ⟨J, by omega, hJ2, ?_, hJ4, hJ5, ?_⟩
      · intro j h1 h2
        by_cases hj : j = lf + 1
        · rw [hj]; exact hcond
        · exact hJ3 j (by omega) h2
      · intro k
        rw [hJ6 k]
        by_cases hk : k = lf + 1
        · subst hk
          have h1 : ¬ (lf + 1 < lf + 1 ∧ lf + 1 ≤ J) := by omega
          have h2 : lf < lf + 1 ∧ lf + 1 ≤ J := by omega
          rw [if_neg h1, if_pos h2,
            List.get?_set_of_lt' _ _ (show lf + 1 < finger.length by omega)]
          simp
        · have hiff : (lf + 1 < k ∧ k ≤ J) ↔ (lf < k ∧ k ≤ J) := by omega
          rw [List.get?_set_of_lt' _ _ (show lf + 1 < finger.length by omega),
            if_neg (show ¬ lf + 1 = k from fun h => hk h.symm)]
          exact if_congr hiff rfl rfl
    · have hfalse : betweenRightIncl id s.id (powerOffset id (lf + 1) hb)
          = false := by
        revert hcond
        cases betweenRightIncl id s.id (powerOffset id (lf + 1) hb) <;> simp
      have hstep : fixFingerLoop id s hb (rem + 1) finger lf = (finger, lf) := by
        simp [fixFingerLoop, hfalse]
      rw [hstep]
      refine ⟨lf, Nat.le_refl lf, hlf, ?_, ?_, rfl, ?_⟩
      · intro j h1 h2; omega
      · intro _; exact hfalse
      · intro k
        have : ¬ (lf < k ∧ k ≤ lf) := by omega
        simp [this]

/-- C7: when the internal lookup of offset power_offset(self.id, i, m)
with i = last_finger fails, finger and last_finger are unchanged; when it
succeeds with node s, finger[i] = s, the entries of the maximal run
i+1..J on which between_right_inclusive(self.id, s.id,
power_offset(self.id, j, m)) holds are also set to s (stopping at the
first violation or at j = m), all other entries are untouched, and
last_finger becomes J + 1, wrapping to 0 when J + 1 = m. -/
theorem fixFingerTable_correct (id : List Nat) (hb : Nat)
    (lookup : List Nat → Option Vnode) (finger : List (Option Vnode))
    (lf : Nat) (hlf : lf < hb) (hlen : finger.length = hb) :
    (lookup (powerOffset id lf hb) = none →
      fixFingerTable id hb lookup finger lf = (finger, lf)) ∧
    (∀ s, lookup (powerOffset id lf hb) = some s →
      ∃ J, lf ≤ J ∧ J < hb ∧
        (∀ j, lf < j → j ≤ J →
          betweenRightIncl id s.id (powerOffset id j hb) = true) ∧
        (J + 1 < hb →
          betweenRightIncl id s.id (powerOffset id (J + 1) hb) = false) ∧
        (fixFingerTable id hb lookup finger lf).2 =
          (if J + 1 = hb then 0 else J + 1) ∧
        (∀ k, (fixFingerTable id hb lookup finger lf).1.get? k =
          if lf ≤ k ∧ k ≤ J then some (some s) else finger.get? k)) := by
  constructor
  · intro hnone
    simp [fixFingerTable, hnone]
  · intro s hsome
    obtain ⟨J, hJ1, hJ2, hJ3, hJ4, hJ5, hJ6⟩ :=
      fixFingerLoop_spec id s hb (hb - (lf + 1)) lf
        (finger.set lf (some s)) rfl hlf (by simp [hlen])
    refine ⟨J, hJ1, hJ2, hJ3, hJ4, ?_, ?_⟩
    · simp only [fixFingerTable, hsome]
      rw [hJ5]
    · intro k
      simp only [fixFingerTable, hsome]
      rw [hJ6 k]
      by_cases hk : k = lf
      · subst hk
        have h1 : ¬ (k < k ∧ k ≤ J) := by omega
        have h2 : k ≤ k ∧ k ≤ J := ⟨Nat.le_refl k, hJ1⟩
        rw [if_neg h1, if_pos h2,
          List.get?_set_of_lt' _ _ (show k < finger.length by omega)]
        simp
      · have hiff : (lf < k ∧ k ≤ J) ↔ (lf ≤ k ∧ k ≤ J) := by omega
        rw [List.get?_set_of_lt' _ _ (show lf < finger.length by omega),
          if_neg (show ¬ lf = k from fun h => hk h.symm)]
        exact if_congr hiff rfl rfl

/-- C7 witness: id = [0], m = 2, last_finger = 0, and a lookup that
returns node ⟨[1], x⟩; the coalescing run for that node is just J = 0. -/
theorem fixFingerTable_correct_witness :
    0 < 2 ∧ ([none, none] : List (Option Vnode)).length = 2 ∧
    ((fun _ : List Nat => some (⟨[1], "x"⟩ : Vnode)) (powerOffset [0] 0 2) = none →
      fixFingerTable [0] 2 (fun _ => some ⟨[1], "x"⟩) [none, none] 0 =
        ([none, none], 0)) ∧
    (∀ s, (fun _ : List Nat => some (⟨[1], "x"⟩ : Vnode)) (powerOffset [0] 0 2) = some s →
      ∃ J, 0 ≤ J ∧ J < 2 ∧
        (∀ j, 0 < j → j ≤ J →
          betweenRightIncl [0] s.id (powerOffset [0] j 2) = true) ∧
        (J + 1 < 2 →
          betweenRightIncl [0] s.id (powerOffset [0] (J + 1) 2) = false) ∧
        (fixFingerTable [0] 2 (fun _ => some ⟨[1], "x"⟩) [none, none] 0).2 =
          (if J + 1 = 2 then 0 else J + 1) ∧
        (∀ k, (fixFingerTable [0] 2 (fun _ => some ⟨[1], "x"⟩) [none, none] 0).1.get? k =
          if 0 ≤ k ∧ k ≤ J then some (some s) else ([none, none] : List (Option Vnode)).get? k)) :=
  ⟨by decide, by decide,
    (fixFingerTable_correct [0] 2 (fun _ => some ⟨[1], "x"⟩) [none, none] 0
      (by decide) (by decide)).1,
    (fixFingerTable_correct [0] 2 (fun _ => some ⟨[1], "x"⟩) [none, none] 0
      (by decide) (by decide)).2⟩

/-! The closest-preceeding vnode iterator (iter_closest.go). -/

/-- State of closestPreceedingVnodeIterator: the key, the owning vnode id,
the hash bits of the ring config, the successor and finger tables, the two
descending cursors and the set of already yielded String() values.  A
cursor value c models Go index c - 1, so 0 models the exhausted index -1. -/
structure IterState where
  key : List Nat
  vnId : List Nat
  hb : Nat
  succs : List (Option Vnode)
  fingers : List (Option Vnode)
  succCur : Nat
  fingCur : Nat
  yielded : List (List Nat)

/-- One descending scan of Next (iter_closest.go): from the cursor, skip
nil entries, already-yielded entries, and entries not strictly between the
vnode id and the key; return the first hit together with the index where
the scan stopped (0 when it ran out). -/
def scanDown (l : List (Option Vnode)) (yielded : List (List Nat))
    (vnId key : List Nat) : Nat → Option Vnode × Nat
  | 0 => (none, 0)
  | c + 1 =>
    match l.get? c with
    | some (some v) =>
      if vnodeString v ∈ yielded then scanDown l yielded vnId key c
      else if between vnId key v.id then (some v, c + 1)
      else scanDown l yielded vnId key c
    | _ => scanDown l yielded vnId key c

/-- Model of closestPreceedingVnodeIterator.init. -/
def cpInit (vnId key : List Nat) (hb : Nat)
    (succs fingers : List (Option Vnode)) : IterState :=
  ⟨key, vnId, hb, succs, fingers, succs.length, fingers.length, []⟩

/-- Model of closestPreceedingVnodeIterator.Next: scan both tables, store
the stopping cursors; with two candidates pick the one with the smaller
forward distance to the key (ties to the successor candidate, as
closestPreceedingVnode returns its first argument on equality) and
decrement only the winning cursor; record the yielded String(). -/
def cpNext (st : IterState) : Option Vnode × IterState :=
  match scanDown st.succs st.yielded st.vnId st.key st.succCur,
        scanDown st.fingers st.yielded st.vnId st.key st.fingCur with
  | (some sv, sc), (some fv, fc) =>
    if distance sv.id st.key st.hb ≤ distance fv.id st.key st.hb then
      (some sv,
        { st with
            succCur := sc - 1
            fingCur := fc
            yielded := vnodeString sv :: st.yielded })
    else
      (some fv,
        { st with
            succCur := sc
            fingCur := fc - 1
            yielded := vnodeString fv :: st.yielded })
  | (some sv, sc), (none, fc) =>
    (some sv,
      { st with
          succCur := sc - 1
          fingCur := fc
          yielded := vnodeString sv :: st.yielded })
  | (none, sc), (some fv, fc) =>
    (some fv,
      { st with
          succCur := sc
          fingCur := fc - 1
          yielded := vnodeString fv :: st.yielded })
  | (none, sc), (none, fc) =>
    (none, { st with succCur := sc, fingCur := fc })

/-- The iterator state after n calls to Next. -/
def cpState (st : IterState) : Nat → IterState
  | 0 => st
  | n + 1 => (cpNext (cpState st n)).2

/-- The result of the (n+1)-st call to Next (0-indexed). -/
def cpOutput (st : IterState) (n : Nat) : Option Vnode :=
  (cpNext (cpState st n)).1

theorem scanDown_some (l : List (Option Vnode)) (y : List (List Nat))
    (a k : List Nat) :
    ∀ c v c2, scanDown l y a k c = (some v, c2) →
      1 ≤ c2 ∧ c2 ≤ c ∧ vnodeString v ∉ y := by
  intro c
  induction c with
  | zero =>
    intro v c2 h
    simp [scanDown] at h
  | succ c ih =>
    intro v c2 h
    rcases hget : l.get? c with _ | ov
    · simp only [scanDown, hget] at h
      obtain ⟨h1, h2, h3⟩ := ih v c2 h
      exact ⟨h1, by omega, h3⟩
    · cases ov with
      | none =>
        simp only [scanDown, hget] at h
        obtain ⟨h1, h2, h3⟩ := ih v c2 h
        exact ⟨h1, by omega, h3⟩
      | some w =>
        simp only [scanDown, hget] at h
        by_cases hmem : vnodeString w ∈ y
        · rw [if_pos hmem] at h
          obtain ⟨h1, h2, h3⟩ := ih v c2 h
          exact ⟨h1, by omega, h3⟩
        · rw [if_neg hmem] at h
          by_cases hbet : between a k w.id = true
          · rw [if_pos hbet] at h
            injection h with h1 h2
            injection h1 with h1
            subst h1
            exact ⟨by omega, by omega, hmem⟩
          · rw [if_neg hbet] at h
            obtain ⟨h1, h2, h3⟩ := ih v c2 h
            exact ⟨h1, by omega, h3⟩

theorem scanDown_none (l : List (Option Vnode)) (y : List (List Nat))
    (a k : List Nat) :
    ∀ c c2, scanDown l y a k c = (none, c2) → c2 = 0 := by
  intro c
  induction c with
  | zero =>
    intro c2 h
    simp only [scanDown, Prod.mk.injEq] at h
    exact h.2.symm
  | succ c ih =>
    intro c2 h
    rcases hget : l.get? c with _ | ov
    · simp only [scanDown, hget] at h
      exact ih c2 h
    · cases ov with
      | none =>
        simp only [scanDown, hget] at h
        exact ih c2 h
      | some w =>
        simp only [scanDown, hget] at h
        by_cases hmem : vnodeString w ∈ y
        · rw [if_pos hmem] at h
          exact ih c2 h
        · rw [if_neg hmem] at h
          by_cases hbet : between a k w.id = true
          · rw [if_pos hbet] at h
            simp at h
          · rw [if_neg hbet] at h
            exact ih c2 h

theorem cpNext_eq_both (st : IterState) (sv fv : Vnode) (sc fc : Nat)
    (hs : scanDown st.succs st.yielded st.vnId st.key st.succCur = (some sv, sc))
    (hf : scanDown st.fingers st.yielded st.vnId st.key st.fingCur = (some fv, fc)) :
    cpNext st =
      if distance sv.id st.key st.hb ≤ distance fv.id st.key st.hb then
        (some sv,
          { st with
              succCur := sc - 1
              fingCur := fc
              yielded := vnodeString sv :: st.yielded })
      else
        (some fv,
          { st with
              succCur := sc
              fingCur := fc - 1
              yielded := vnodeString fv :: st.yielded }) := by
  unfold cpNext
  rw [hs, hf]

theorem cpNext_eq_succOnly (st : IterState) (sv : Vnode) (sc fc : Nat)
    (hs : scanDown st.succs st.yielded st.vnId st.key st.succCur = (some sv, sc))
    (hf : scanDown st.fingers st.yielded st.vnId st.key st.fingCur = (none, fc)) :
    cpNext st =
      (some sv,
        { st with
            succCur := sc - 1
            fingCur := fc
            yielded := vnodeString sv :: st.yielded }) := by
  unfold cpNext
  rw [hs, hf]

theorem cpNext_eq_fingOnly (st : IterState) (fv : Vnode) (sc fc : Nat)
    (hs : scanDown st.succs st.yielded st.vnId st.key st.succCur = (none, sc))
    (hf : scanDown st.fingers st.yielded st.vnId st.key st.fingCur = (some fv, fc)) :
    cpNext st =
      (some fv,
        { st with
            succCur := sc
            fingCur := fc - 1
            yielded := vnodeString fv :: st.yielded }) := by
  unfold cpNext
  rw [hs, hf]

theorem cpNext_eq_none (st : IterState) (sc fc : Nat)
    (hs : scanDown st.succs st.yielded st.vnId st.key st.succCur = (none, sc))
    (hf : scanDown st.fingers st.yielded st.vnId st.key st.fingCur = (none, fc)) :
    cpNext st = (none, { st with succCur := sc, fingCur := fc }) := by
  unfold cpNext
  rw [hs, hf]

theorem cpNext_some (st : IterState) (v : Vnode) (st2 : IterState)
    (h : cpNext st = (some v, st2)) :
    st2.succCur + st2.fingCur < st.succCur + st.fingCur ∧
    vnodeString v ∉ st.yielded ∧
    st2.yielded = vnodeString v :: st.yielded := by
  rcases hs : scanDown st.succs st.yielded st.vnId st.key st.succCur
    with ⟨os, sc⟩
  rcases hf : scanDown st.fingers st.yielded st.vnId st.key st.fingCur
    with ⟨of, fc⟩
  cases os with
  | some sv =>
    obtain ⟨hs1, hs2, hs3⟩ := scanDown_some _ _ _ _ _ _ _ hs
    cases of with
    | some fv =>
      obtain ⟨hf1, hf2, hf3⟩ := scanDown_some _ _ _ _ _ _ _ hf
      rw [cpNext_eq_both st sv fv sc fc hs hf] at h
      split_ifs at h
      · injection h with h1 h2
        injection h1 with h1
        subst h1
        subst h2
        exact ⟨by show sc - 1 + fc < _; omega, hs3, rfl⟩
      · injection h with h1 h2
        injection h1 with h1
        subst h1
        subst h2
        exact ⟨by show sc + (fc - 1) < _; omega, hf3, rfl⟩
    | none =>
      have hfc := scanDown_none _ _ _ _ _ _ hf
      rw [cpNext_eq_succOnly st sv sc fc hs hf] at h
      injection h with h1 h2
      injection h1 with h1
      subst h1
      subst h2
      exact ⟨by show sc - 1 + fc < _; omega, hs3, rfl⟩
  | none =>
    have hsc := scanDown_none _ _ _ _ _ _ hs
    cases of with
    | some fv =>
      obtain ⟨hf1, hf2, hf3⟩ := scanDown_some _ _ _ _ _ _ _ hf
      rw [cpNext_eq_fingOnly st fv sc fc hs hf] at h
      injection h with h1 h2
      injection h1 with h1
      subst h1
      subst h2
      exact ⟨by show sc + (fc - 1) < _; omega, hf3, rfl⟩
    | none =>
      rw [cpNext_eq_none st sc fc hs hf] at h
      simp at h

theorem cpNext_none_state (st : IterState) (st2 : IterState)
    (h : cpNext st = (none, st2)) :
    st2.succCur = 0 ∧ st2.fingCur = 0 ∧ st2.yielded = st.yielded := by
  rcases hs : scanDown st.succs st.yielded st.vnId st.key st.succCur
    with ⟨os, sc⟩
  rcases hf : scanDown st.fingers st.yielded st.vnId st.key st.fingCur
    with ⟨of, fc⟩
  cases os with
  | some sv =>
    cases of with
    | some fv =>
      rw [cpNext_eq_both st sv fv sc fc hs hf] at h
      split_ifs at h <;> simp at h
    | none =>
      rw [cpNext_eq_succOnly st sv sc fc hs hf] at h
      simp at h
  | none =>
    have hsc := scanDown_none _ _ _ _ _ _ hs
    cases of with
    | some fv =>
      rw [cpNext_eq_fingOnly st fv sc fc hs hf] at h
      simp at h
    | none =>
      have hfc := scanDown_none _ _ _ _ _ _ hf
      rw [cpNext_eq_none st sc fc hs hf] at h
      injection h with h1 h2
      subst h2
      exact ⟨hsc, hfc, rfl⟩

theorem cpNext_zero (st : IterState) (h1 : st.succCur = 0)
    (h2 : st.fingCur = 0) : (cpNext st).1 = none := by
  simp [cpNext, h1, h2, scanDown]

theorem cpNext_yielded_mono (st : IterState) :
    st.yielded ⊆ (cpNext st).2.yielded := by
  rcases h : cpNext st with ⟨o, st2⟩
  cases o with
  | some v =>
    have := (cpNext_some st v st2 h).2.2
    simp only [this]
    exact List.subset_cons_self _ _
  | none =>
    have := (cpNext_none_state st st2 h).2.2
    simp only [this]
    exact fun x hx => hx

theorem cpState_yielded_mono (st : IterState) (m n : Nat) (h : m ≤ n) :
    (cpState st m).yielded ⊆ (cpState st n).yielded := by
  induction n with
  | zero =>
    have hm : m = 0 := by omega
    subst hm
    exact fun x hx => hx
  | succ n ih =>
    by_cases hm : m = n + 1
    · subst hm
      exact fun x hx => hx
    · have hmn : m ≤ n := by omega
      exact (ih hmn).trans (cpNext_yielded_mono (cpState st n))

theorem cpSum_le (st : IterState) :
    ∀ n, (cpState st n).succCur + (cpState st n).fingCur + n ≤
        st.succCur + st.fingCur ∨
      (cpState st n).succCur + (cpState st n).fingCur = 0 := by
  intro n
  induction n with
  | zero =>
    left
    show st.succCur + st.fingCur + 0 ≤ st.succCur + st.fingCur
    omega
  | succ n ih =>
    rcases ho : cpNext (cpState st n) with ⟨o, st2⟩
    have hst : cpState st (n + 1) = st2 := by
      show (cpNext (cpState st n)).2 = st2
      rw [ho]
    cases o with
    | some v =>
      have hlt := (cpNext_some (cpState st n) v st2 ho).1
      rcases ih with ih | ih
      · left; rw [hst]; omega
      · have := cpNext_zero (cpState st n) (by omega) (by omega)
        rw [ho] at this
        exact absurd this (by simp)
    | none =>
      right
      rw [hst]
      have := cpNext_none_state (cpState st n) st2 ho
      omega

/-- C8: the closest-preceeding iterator never returns the same id twice
(outputs at distinct call indices have distinct String() forms), and after
at most |successors| + |finger| calls to Next it is exhausted: the call
with index |successors| + |finger| (0-based) returns nil. -/
theorem closestPreceedingIterator_correct (vnId key : List Nat) (hb : Nat)
    (succs fingers : List (Option Vnode)) :
    (∀ i j v w, i < j →
      cpOutput (cpInit vnId key hb succs fingers) i = some v →
      cpOutput (cpInit vnId key hb succs fingers) j = some w →
      vnodeString v ≠ vnodeString w) ∧
    cpOutput (cpInit vnId key hb succs fingers)
      (succs.length + fingers.length) = none := by
  constructor
  · intro i j v w hij hv hw heq
    rcases hstepi : cpNext (cpState (cpInit vnId key hb succs fingers) i)
      with ⟨oi, sti⟩
    have hoi : oi = some v := by
      rw [← hv]
      show _ = (cpNext (cpState (cpInit vnId key hb succs fingers) i)).1
      rw [hstepi]
    subst hoi
    have hsti : cpState (cpInit vnId key hb succs fingers) (i + 1) = sti := by
      show (cpNext (cpState (cpInit vnId key hb succs fingers) i)).2 = sti
      rw [hstepi]
    have hvmem : vnodeString v ∈
        (cpState (cpInit vnId key hb succs fingers) (i + 1)).yielded := by
      rw [hsti, (cpNext_some _ _ _ hstepi).2.2]
      exact List.mem_cons_self _ _
    have hvmemj : vnodeString v ∈
        (cpState (cpInit vnId key hb succs fingers) j).yielded :=
      cpState_yielded_mono _ (i + 1) j (by omega) hvmem
    rcases hstepj : cpNext (cpState (cpInit vnId key hb succs fingers) j)
      with ⟨oj, stj⟩
    have hoj : oj = some w := by
      rw [← hw]
      show _ = (cpNext (cpState (cpInit vnId key hb succs fingers) j)).1
      rw [hstepj]
    subst hoj
    have hwnot := (cpNext_some _ _ _ hstepj).2.1
    rw [← heq] at hwnot
    exact hwnot hvmemj
  · have hinit : (cpInit vnId key hb succs fingers).succCur +
        (cpInit vnId key hb succs fingers).fingCur =
        succs.length + fingers.length := rfl
    rcases cpSum_le (cpInit vnId key hb succs fingers)
      (succs.length + fingers.length) with h | h
    · rw [hinit] at h
      exact cpNext_zero _ (by omega) (by omega)
    · exact cpNext_zero _ (by omega) (by omega)

/-! Ring.Lookup: nearest local vnode selection and trailing-nil trimming. -/

/-- Scanning loop of Ring.nearestVnode (chord.go): from index m - 1 down
to 0, return the first vnode whose ID compares below the key. -/
def nearestVnodeAux (vns : List Vnode) (key : List Nat) : Nat → Option Vnode
  | 0 => none
  | i + 1 =>
    match vns.get? i with
    | some v =>
      if bytesCompare v.id key = -1 then some v else nearestVnodeAux vns key i
    | none => nearestVnodeAux vns key i

/-- Model of Ring.nearestVnode (chord.go): the downward scan with fallback
to the last local vnode; none models the empty vnode list, on which the Go
fallback vnodes[len-1] would index out of range. -/
def nearestVnode (vns : List Vnode) (key : List Nat) : Option Vnode :=
  match nearestVnodeAux vns key vns.length with
  | some v => some v
  | none => vns.get? (vns.length - 1)

/-- Helper for the trailing-nil trim loop of Ring.Lookup; the first
argument is recursion fuel (the loop drops one entry per iteration, so the
list length suffices).  Indexing successors[len-1] on an empty slice
panics in Go, modelled as none. -/
def trimAux : Nat → List (Option Vnode) → Option (List (Option Vnode))
  | _, [] => none
  | 0, _ :: _ => none
  | fuel + 1, x :: rest =>
    if (x :: rest).getLast? = some none then trimAux fuel (x :: rest).dropLast
    else some (x :: rest)

/-- Model of the loop: for successors[len(successors)-1] == nil,
successors = successors[:len(successors)-1] at the end of Ring.Lookup. -/
def trimTrailingNils (l : List (Option Vnode)) : Option (List (Option Vnode)) :=
  trimAux l.length l

/-- Outcome of Ring.Lookup. -/
inductive LookupResult where
  | failed
  | panicked
  | ok (succs : List (Option Vnode))
deriving DecidableEq

/-- Model of Ring.Lookup (chord.go): reject n > NumSuccessors, hash the
key, select the nearest local vnode and call its FindSuccessors there
(abstracted as the oracle fs; none models an error), then trim trailing
nils.  Out-of-range indexing is panicked. -/
def ringLookup (r n : Nat) (hash : List Nat → List Nat) (vns : List Vnode)
    (fs : Vnode → Nat → List Nat → Option (List (Option Vnode)))
    (key : List Nat) : LookupResult :=
  if n > r then LookupResult.failed
  else
    match nearestVnode vns (hash key) with
    | none => LookupResult.panicked
    | some v =>
      match fs v n (hash key) with
      | none => LookupResult.failed
      | some succs =>
        match trimTrailingNils succs with
        | none => LookupResult.panicked
        | some l => LookupResult.ok l

theorem nearestVnodeAux_none (vns : List Vnode) (key : List Nat) :
    ∀ m, nearestVnodeAux vns key m = none →
      ∀ i, i < m → ∀ v, vns.get? i = some v → bytesCompare v.id key ≠ -1 := by
  intro m
  induction m with
  | zero => intro _ i hi; omega
  | succ m ih =>
    intro h i hi v hget
    rcases hm : vns.get? m with _ | w
    · simp only [nearestVnodeAux, hm] at h
      by_cases him : i = m
      · subst him
        rw [hget] at hm
        exact absurd hm (by simp)
      · exact ih h i (by omega) v hget
    · simp only [nearestVnodeAux, hm] at h
      by_cases hcmp : bytesCompare w.id key = -1
      · rw [if_pos hcmp] at h
        exact absurd h (by simp)
      · rw [if_neg hcmp] at h
        by_cases him : i = m
        · subst him
          rw [hget] at hm
          injection hm with hm
          subst hm
          exact hcmp
        · exact ih h i (by omega) v hget

theorem nearestVnodeAux_some (vns : List Vnode) (key : List Nat) :
    ∀ m v, nearestVnodeAux vns key m = some v →
      ∃ i, i < m ∧ vns.get? i = some v ∧ bytesCompare v.id key = -1 ∧
        ∀ j, i < j → j < m → ∀ w, vns.get? j = some w →
          bytesCompare w.id key ≠ -1 := by
  intro m
  induction m with
  | zero =>
    intro v h
    simp [nearestVnodeAux] at h
  | succ m ih =>
    intro v h
    rcases hm : vns.get? m with _ | w
    · simp only [nearestVnodeAux, hm] at h
      obtain ⟨i, hi1, hi2, hi3, hi4⟩ := ih v h
      refine ⟨i, by omega, hi2, hi3, ?_⟩
      intro j hj1 hj2 w2 hw2
      by_cases hjm : j = m
      · subst hjm
        rw [hw2] at hm
        exact absurd hm (by simp)
      · exact hi4 j hj1 (by omega) w2 hw2
    · simp only [nearestVnodeAux, hm] at h
      by_cases hcmp : bytesCompare w.id key = -1
      · rw [if_pos hcmp] at h
        injection h with h
        subst h
        refine ⟨m, by omega, hm, hcmp, ?_⟩
        intro j hj1 hj2
        omega
      · rw [if_neg hcmp] at h
        obtain ⟨i, hi1, hi2, hi3, hi4⟩ := ih v h
        refine ⟨i, by omega, hi2, hi3, ?_⟩
        intro j hj1 hj2 w2 hw2
        by_cases hjm : j = m
        · subst hjm
          rw [hw2] at hm
          injection hm with hm
          subst hm
          exact hcmp
        · exact hi4 j hj1 (by omega) w2 hw2

/-- C9: for a non-empty sorted local vnode list and n ≤ r, Ring.Lookup
selects (and delegates the FindSuccessors call to) the local vnode v given
by nearestVnode, and v is either the vnode whose ID is the largest one
comparing strictly below the key hash, or, when no local ID compares below
the key hash, the last (highest-ID) local vnode. -/
theorem ringLookup_nearest (r n : Nat) (hash : List Nat → List Nat)
    (vns : List Vnode) (key : List Nat)
    (hne : vns ≠ [])
    (hsorted : List.Pairwise (fun a b => bytesCompare a.id b.id = -1) vns)
    (hn : n ≤ r) :
    ∃ v, nearestVnode vns (hash key) = some v ∧
      (∀ fs, ringLookup r n hash vns fs key =
        match fs v n (hash key) with
        | none => LookupResult.failed
        | some succs =>
          match trimTrailingNils succs with
          | none => LookupResult.panicked
          | some l => LookupResult.ok l) ∧
      ((bytesCompare v.id (hash key) = -1 ∧
        ∀ w ∈ vns, bytesCompare w.id (hash key) = -1 →
          w = v ∨ bytesCompare w.id v.id = -1) ∨
       ((∀ w ∈ vns, bytesCompare w.id (hash key) ≠ -1) ∧
        vns.get? (vns.length - 1) = some v)) := by
  have hlen : 0 < vns.length := List.length_pos.mpr hne
  have hpair := List.pairwise_iff_getElem.mp hsorted
  rcases haux : nearestVnodeAux vns (hash key) vns.length with _ | v
  · have hnone := nearestVnodeAux_none vns (hash key) vns.length haux
    have hlast : ∃ v, vns.get? (vns.length - 1) = some v := by
      have : vns.length - 1 < vns.length := by omega
      rw [List.get?_eq_getElem?, List.getElem?_eq_getElem this]
      exact ⟨vns[vns.length - 1], rfl⟩
    obtain ⟨v, hv⟩ := hlast
    refine ⟨v, ?_, ?_, Or.inr ⟨?_, hv⟩⟩
    · unfold nearestVnode
      rw [haux, hv]
    · intro fs
      unfold ringLookup nearestVnode
      rw [if_neg (by omega), haux, hv]
    · intro w hw
      obtain ⟨i, hi, hwi⟩ := List.getElem_of_mem hw
      exact hnone i hi w (by
        rw [List.get?_eq_getElem?, List.getElem?_eq_getElem hi, hwi])
  · obtain ⟨i, hi1, hi2, hi3, hi4⟩ :=
      nearestVnodeAux_some vns (hash key) vns.length v haux
    refine ⟨v, ?_, ?_, Or.inl ⟨hi3, ?_⟩⟩
    · unfold nearestVnode
      rw [haux]
    · intro fs
      unfold ringLookup nearestVnode
      rw [if_neg (by omega), haux]
    · intro w hw hcmp
      obtain ⟨j, hj, hwj⟩ := List.getElem_of_mem hw
      have hgetj : vns.get? j = some w := by
        rw [List.get?_eq_getElem?, List.getElem?_eq_getElem hj, hwj]
      rcases Nat.lt_trichotomy j i with hji | hji | hji
      · right
        have := hpair j i hj hi1 hji
        have hgi : vns[i] = v := by
          rw [List.get?_eq_getElem?, List.getElem?_eq_getElem hi1] at hi2
          injection hi2
        rw [hwj, hgi] at this
        exact this
      · left
        subst hji
        rw [hgetj] at hi2
        exact Option.some_inj.mp hi2
      · exact absurd hcmp (hi4 j hji hj w hgetj)

/-- C9 witness: two sorted vnodes, the key hash [2] falls between them, so
the vnode with ID [1] is selected. -/
theorem ringLookup_nearest_witness :
    ([⟨[1], "a"⟩, ⟨[3], "b"⟩] : List Vnode) ≠ [] ∧
    List.Pairwise (fun a b : Vnode => bytesCompare a.id b.id = -1)
      [⟨[1], "a"⟩, ⟨[3], "b"⟩] ∧
    1 ≤ 2 ∧
    (∃ v, nearestVnode [⟨[1], "a"⟩, ⟨[3], "b"⟩] ((fun k => k) [2]) = some v ∧
      (∀ fs, ringLookup 2 1 (fun k => k) [⟨[1], "a"⟩, ⟨[3], "b"⟩] fs [2] =
        match fs v 1 ((fun k => k) [2]) with
        | none => LookupResult.failed
        | some succs =>
          match trimTrailingNils succs with
          | none => LookupResult.panicked
          | some l => LookupResult.ok l) ∧
      ((bytesCompare v.id ((fun k => k) [2]) = -1 ∧
        ∀ w ∈ ([⟨[1], "a"⟩, ⟨[3], "b"⟩] : List Vnode),
          bytesCompare w.id ((fun k => k) [2]) = -1 →
            w = v ∨ bytesCompare w.id v.id = -1) ∨
       ((∀ w ∈ ([⟨[1], "a"⟩, ⟨[3], "b"⟩] : List Vnode),
          bytesCompare w.id ((fun k => k) [2]) ≠ -1) ∧
        ([⟨[1], "a"⟩, ⟨[3], "b"⟩] : List Vnode).get?
          (([⟨[1], "a"⟩, ⟨[3], "b"⟩] : List Vnode).length - 1) = some v))) :=
  ⟨by decide, by decide, by decide,
    ringLookup_nearest 2 1 (fun k => k) [⟨[1], "a"⟩, ⟨[3], "b"⟩] [2]
      (by decide) (by decide) (by decide)⟩

theorem listAllNone_eq_replicate (l : List (Option Vnode))
    (h : ∀ x ∈ l, x = none) : l = List.replicate l.length none := by
  induction l with
  | nil => rfl
  | cons x rest ih =>
    have hx : x = none := h x (by simp)
    subst hx
    rw [List.length_cons, List.replicate_succ]
    exact congrArg (List.cons none) (ih (fun y hy => h y (by simp [hy])))

theorem trimAux_replicate :
    ∀ fuel k, trimAux fuel (List.replicate k (none : Option Vnode)) = none := by
  intro fuel
  induction fuel with
  | zero =>
    intro k
    cases k with
    | zero => rfl
    | succ k => rw [List.replicate_succ]; rfl
  | succ fuel ih =>
    intro k
    cases k with
    | zero => rfl
    | succ k =>
      rw [List.replicate_succ]
      show (if (none :: List.replicate k (none : Option Vnode)).getLast? =
          some none then
          trimAux fuel (none :: List.replicate k none).dropLast
        else some (none :: List.replicate k none)) = none
      rw [if_pos (by
        rw [← List.replicate_succ, List.getLast?_replicate]
        simp)]
      rw [← List.replicate_succ, show List.replicate (k + 1) (none : Option Vnode)
        = List.replicate k none ++ [none] from List.replicate_succ' _ _,
        List.dropLast_concat]
      exact ih k

/-- C10: Ring.Lookup assumes FindSuccessors returns at least one non-nil
entry: whenever the call succeeds with an empty or all-nil list, the
trailing-nil trimming loop indexes the slice out of range (modelled as the
panicked outcome) instead of producing an error or an empty result. -/
theorem ringLookup_trim_panics (l : List (Option Vnode))
    (hall : ∀ x ∈ l, x = none) :
    trimTrailingNils l = none ∧
    (∀ r n hash (vns : List Vnode) fs (key : List Nat) v, n ≤ r →
      nearestVnode vns (hash key) = some v →
      fs v n (hash key) = some l →
      ringLookup r n hash vns fs key = LookupResult.panicked) := by
  have htrim : trimTrailingNils l = none := by
    unfold trimTrailingNils
    conv_lhs => rw [listAllNone_eq_replicate l hall]
    rw [List.length_replicate]
    exact trimAux_replicate l.length l.length
  refine ⟨htrim, ?_⟩
  intro r n hash vns fs key v hn hnear hfs
  unfold ringLookup
  rw [if_neg (by omega), hnear]
  show (match fs v n (hash key) with
    | none => LookupResult.failed
    | some succs =>
      match trimTrailingNils succs with
      | none => LookupResult.panicked
      | some l2 => LookupResult.ok l2) = LookupResult.panicked
  rw [hfs]
  show (match trimTrailingNils l with
    | none => LookupResult.panicked
    | some l2 => LookupResult.ok l2) = LookupResult.panicked
  rw [htrim]

/-- C10 witness: a successful FindSuccessors returning [nil, nil] makes
Lookup panic in the trimming loop. -/
theorem ringLookup_trim_panics_witness :
    (∀ x ∈ ([none, none] : List (Option Vnode)), x = none) ∧
    (trimTrailingNils [none, none] = none ∧
     (∀ r n hash (vns : List Vnode) fs (key : List Nat) v, n ≤ r →
        nearestVnode vns (hash key) = some v →
        fs v n (hash key) = some [none, none] →
        ringLookup r n hash vns fs key = LookupResult.panicked)) :=
  ⟨by decide, ringLookup_trim_panics [none, none] (by decide)⟩

end Chord
